import Mathlib

/-
Verification of the knowledge index of the GenomiX repository
(src/src/knowledge_base.py, class BiologyKnowledgeBase).

Shallow embedding conventions:
* Python strings are lists of characters (List Char); a helper turns Lean
  string literals into that form.
* Lexical scores: the source accumulates the float increments 0.8 and 0.2,
  so every lexical score is an exact multiple of 0.1.  The embedding stores
  lexical scores as the exact integer count of tenths (0.8 becomes 8, 0.2
  becomes 2, a score of 0.4 becomes 4); order comparisons and the
  confidence mapping int(score * 80) = 8 * tenths are exact under this
  scaling.
* Vector-path similarity scores come from the external embedding model and
  FAISS index; they are arbitrary rationals supplied by an oracle.
* The embedding model and the FAISS index are external collaborators; a
  built per-category index is modelled as an oracle taking the query text
  and the requested k and returning either the (score, index) pairs of the
  FAISS search or none when the vector pipeline raises; building indices
  from a model is an oracle from the corpus texts to an optional index,
  none meaning the build raised.
* Python exceptions are modelled with Option: none where the source's
  try/except would catch a raise.
-/

/-- Characters of a string literal, for writing concrete inputs concisely. -/
def cs (s : String) : List Char := s.data

/-- Python str whitespace (the characters str.split with no argument splits on). -/
def isWS (c : Char) : Bool :=
  c = ' ' || c = '\t' || c = '\n' || c = '\r' || c = '\x0b' || c = '\x0c'

/-- Python str.lower, character by character. -/
def low (s : List Char) : List Char := s.map Char.toLower

/-- Python substring test (the expression needle in hay on str). -/
def substrB (p s : List Char) : Bool := s.tails.any fun t => p.isPrefixOf t

/-- Accumulator pass of the whitespace tokenizer; the current word is held
reversed. -/
def splitWSAux : List Char → List Char → List (List Char)
  | [], acc => if acc.isEmpty then [] else [acc.reverse]
  | c :: rest, acc =>
    if isWS c then
      if acc.isEmpty then splitWSAux rest []
      else acc.reverse :: splitWSAux rest []
    else splitWSAux rest (c :: acc)

/-- Python str.split() with no argument: maximal runs of non-whitespace. -/
def splitWS (s : List Char) : List (List Char) := splitWSAux s []

/-- Python ' '.join on a list of strings. -/
def joinSp : List (List Char) → List Char
  | [] => []
  | [x] => x
  | x :: y :: rest => x ++ ' ' :: joinSp (y :: rest)

/-- A record field value: a scalar string, a list of strings, a lexical score
in tenths, an integer, or a rational (vector-path similarity scores). -/
inductive Val where
  | str (s : List Char)
  | lst (l : List (List Char))
  | sc10 (n : Nat)
  | int (v : Int)
  | rat (q : Rat)
deriving DecidableEq

/-- A record: a Python dict in insertion order (keys unique in practice). -/
abbrev Rec := List (String × Val)

/-- Python dict read, first binding of the key. -/
def getF : Rec → String → Option Val
  | [], _ => none
  | p :: r, k => if p.1 == k then some p.2 else getF r k

/-- Python dict assignment: replace the binding in place if the key is
present (dict keys are unique), else append it (dict insertion order). -/
def setF : Rec → String → Val → Rec
  | [], k, v => [(k, v)]
  | p :: r, k, v => if p.1 == k then (k, v) :: r else p :: setF r k v

/-- record.get(k, '') followed by str(), for string-valued fields. -/
def gets (r : Rec) (k : String) : List Char :=
  match getF r k with
  | some (.str s) => s
  | _ => []

/-- record.get(k, []), for string-list fields. -/
def getl (r : Rec) (k : String) : List (List Char) :=
  match getF r k with
  | some (.lst l) => l
  | _ => []

/-- Read a lexical score (tenths) back out of an annotated record. -/
def getSc (r : Rec) (k : String) : Nat :=
  match getF r k with
  | some (.sc10 n) => n
  | _ => 0

/-- Python int() on a rational: truncation toward zero. -/
def pyInt (q : Rat) : Int := q.num / (q.den : Int)

/-- Lexical score of one record text against the lowered query, in tenths;
the source's running float score (0.8 for a full-substring hit, then +0.2
per matching whitespace token, in a loop). -/
def lexScore (text : List Char) (ql : List Char) : Nat :=
  (splitWS ql).foldl (fun sc w => if substrB w text then sc + 2 else sc)
    (if substrB ql text then 0 + 8 else 0)

/-- The scoring rule as the specification words it: 0.8 (8 tenths) if the
full query is a substring, plus 0.2 (2 tenths) for each whitespace token of
the query that is a substring. -/
def specScore (text ql : List Char) : Nat :=
  (if substrB ql text then 8 else 0) + 2 * ((splitWS ql).countP fun w => substrB w text)

/-- Searchable text of _basic_search_species: join of the six parts (empty
segments included) then lower. -/
def rawSpecies (r : Rec) : List Char :=
  joinSp [gets r "name", gets r "scientific_name", gets r "characteristics",
    gets r "habitat", gets r "behavior", joinSp (getl r "keywords")]

def textSpecies (r : Rec) : List Char := low (rawSpecies r)

/-- Searchable text of _basic_search_concepts. -/
def rawConcepts (r : Rec) : List Char :=
  joinSp [gets r "name", gets r "definition", gets r "description",
    joinSp (getl r "keywords"), joinSp (getl r "related_concepts")]

def textConcepts (r : Rec) : List Char := low (rawConcepts r)

/-- Searchable text of _basic_search_processes. -/
def rawProcesses (r : Rec) : List Char :=
  joinSp [gets r "name", gets r "description", gets r "mechanism",
    joinSp (getl r "steps"), joinSp (getl r "keywords")]

def textProcesses (r : Rec) : List Char := low (rawProcesses r)

/-- Result annotation of _basic_search_species: similarity_score, the
clamped confidence min(90, max(50, int(score * 80))) — with score = n/10
the product is exactly 8n — and search_method = 'basic'. -/
def annSpeciesB (r : Rec) (n : Nat) : Rec :=
  setF (setF (setF r "similarity_score" (.sc10 n))
    "confidence" (.int (min 90 (max 50 (8 * (n : Int)))))) "search_method" (.str (cs "basic"))

/-- Result annotation of _vector_search_species: similarity_score,
confidence min(95, max(60, int(score * 100))), search_method = 'vector'. -/
def annSpeciesV (r : Rec) (s : Rat) : Rec :=
  setF (setF (setF r "similarity_score" (.rat s))
    "confidence" (.int (min 95 (max 60 (pyInt (s * 100)))))) "search_method" (.str (cs "vector"))

/-- Result annotation of _basic_search_concepts: relevance_score and
search_method only (no confidence field). -/
def annConcB (r : Rec) (n : Nat) : Rec :=
  setF (setF r "relevance_score" (.sc10 n)) "search_method" (.str (cs "basic"))

/-- Result annotation of _vector_search_concepts. -/
def annConcV (r : Rec) (s : Rat) : Rec :=
  setF (setF r "relevance_score" (.rat s)) "search_method" (.str (cs "vector"))

/-- Result annotation of _basic_search_processes (same fields as concepts). -/
def annProcB (r : Rec) (n : Nat) : Rec :=
  setF (setF r "relevance_score" (.sc10 n)) "search_method" (.str (cs "basic"))

/-- Result annotation of _vector_search_processes. -/
def annProcV (r : Rec) (s : Rat) : Rec :=
  setF (setF r "relevance_score" (.rat s)) "search_method" (.str (cs "vector"))

/-- Per-category data of the three near-identical search method triples. -/
structure Cat where
  textOf : Rec → List Char
  annB : Rec → Nat → Rec
  annV : Rec → Rat → Rec
  key : String

def speciesCat : Cat :=
  { textOf := textSpecies, annB := annSpeciesB, annV := annSpeciesV,
    key := "similarity_score" }

def conceptsCat : Cat :=
  { textOf := textConcepts, annB := annConcB, annV := annConcV,
    key := "relevance_score" }

def procCat : Cat :=
  { textOf := textProcesses, annB := annProcB, annV := annProcV,
    key := "relevance_score" }

/-- The loop of _basic_search_*: score every record, keep those with score
over 0, annotated. -/
def scoredList (c : Cat) (data : List Rec) (q : List Char) : List Rec :=
  data.filterMap fun r =>
    let sc := lexScore (c.textOf r) (low q)
    if 0 < sc then some (c.annB r sc) else none

/-- Descending comparison on the score key; Python's stable
list.sort(key=score, reverse=True) is realized by insertion sort under this
relation (insertion after strictly greater, before lower-or-equal, which
keeps ties in original order). -/
def geKey (c : Cat) (a b : Rec) : Prop := getSc b c.key ≤ getSc a c.key

instance (c : Cat) : DecidableRel (geKey c) := fun _ _ =>
  inferInstanceAs (Decidable (_ ≤ _))

/-- _basic_search_*: score, filter, stable-sort descending, take top_k. -/
def basicSearch (c : Cat) (data : List Rec) (q : List Char) (k : Nat) : List Rec :=
  (List.insertionSort (geKey c) (scoredList c data q)).take k

/-- A built per-category vector index as an oracle: query text and k to the
FAISS (score, index) rows, or none when the vector pipeline raises. -/
abbrev Idx := List Char → Nat → Option (List (Rat × Int))

/-- The embedding model as an oracle: corpus texts to a built index, or
none when encoding or index construction raises. -/
abbrev Model := List (List Char) → Option Idx

/-- Python list indexing self.data[idx] (negative indices count from the
end; out of range raises, here none). -/
def pyIndex (l : List Rec) (i : Int) : Option Rec :=
  if 0 ≤ i then l[i.toNat]?
  else if (-i).toNat ≤ l.length then l[l.length - (-i).toNat]?
  else none

/-- The result loop of _vector_search_*: skip index -1 rows, annotate a
copy of the addressed record; none when indexing raises (the whole try
block is then abandoned). -/
def vectorCollect (c : Cat) (data : List Rec) : List (Rat × Int) → Option (List Rec)
  | [] => some []
  | (s, i) :: rest =>
    if i = -1 then vectorCollect c data rest
    else
      match pyIndex data i with
      | none => none
      | some r => (vectorCollect c data rest).map fun l => c.annV r s :: l

/-- _vector_search_*: run the oracle with min(top_k, len(data)); any raise
(oracle none, or indexing failure) falls back to the basic search for this
one call. -/
def vectorSearch (c : Cat) (ix : Idx) (data : List Rec) (q : List Char) (k : Nat) : List Rec :=
  match ix q (min k data.length) with
  | none => basicSearch c data q k
  | some pairs =>
    match vectorCollect c data pairs with
    | none => basicSearch c data q k
    | some res => res

/-- search_species / search_concepts / search_processes: empty data gives
[], the vector path runs when self.model and self.<cat>_index and
self.is_initialized are all truthy, else the basic path. -/
def searchIn (c : Cat) (modelPresent : Bool) (idx : Option Idx) (isInit : Bool)
    (data : List Rec) (q : List Char) (k : Nat) : List Rec :=
  if data.isEmpty then []
  else
    match modelPresent, idx, isInit with
    | true, some ix, true => vectorSearch c ix data q k
    | _, _, _ => basicSearch c data q k

/-- The mutable state of a BiologyKnowledgeBase: the three in-memory record
lists, the optional model and per-category indices, the is_initialized
flag, and the persisted per-category files (writeOk models the file system
accepting writes; the source logs and swallows write errors). -/
structure KB where
  model : Option Model
  speciesData : List Rec
  conceptsData : List Rec
  processesData : List Rec
  speciesIdx : Option Idx
  conceptsIdx : Option Idx
  processesIdx : Option Idx
  isInit : Bool
  writeOk : Bool
  speciesDisk : List Rec
  conceptsDisk : List Rec
  processesDisk : List Rec

def searchSpecies (st : KB) (q : List Char) (k : Nat) : List Rec :=
  searchIn speciesCat st.model.isSome st.speciesIdx st.isInit st.speciesData q k

def searchConcepts (st : KB) (q : List Char) (k : Nat) : List Rec :=
  searchIn conceptsCat st.model.isSome st.conceptsIdx st.isInit st.conceptsData q k

def searchProcesses (st : KB) (q : List Char) (k : Nat) : List Rec :=
  searchIn procCat st.model.isSome st.processesIdx st.isInit st.processesData q k

/-- _save_species_data: rewrite the category file with the in-memory list
(write errors are logged and swallowed in the source). -/
def saveSpecies (st : KB) : KB :=
  if st.writeOk then { st with speciesDisk := st.speciesData } else st

def saveConcepts (st : KB) : KB :=
  if st.writeOk then { st with conceptsDisk := st.conceptsData } else st

def saveProcesses (st : KB) : KB :=
  if st.writeOk then { st with processesDisk := st.processesData } else st

/-- _format_species_text: join of the non-empty configured fields. -/
def fmtSpecies (r : Rec) : List Char :=
  joinSp (([gets r "name", gets r "scientific_name", gets r "family",
    gets r "characteristics", gets r "habitat", gets r "behavior",
    joinSp (getl r "keywords")]).filter fun p => !p.isEmpty)

/-- _format_concept_text. -/
def fmtConcepts (r : Rec) : List Char :=
  joinSp (([gets r "name", gets r "definition", gets r "description",
    gets r "importance", joinSp (getl r "keywords"),
    joinSp (getl r "related_concepts")]).filter fun p => !p.isEmpty)

/-- _format_process_text. -/
def fmtProcesses (r : Rec) : List Char :=
  joinSp (([gets r "name", gets r "description", gets r "mechanism",
    gets r "location", joinSp (getl r "steps"),
    joinSp (getl r "keywords")]).filter fun p => !p.isEmpty)

/-- One category's build inside _create_vector_indices: skipped when the
data list is empty (old index kept), else the model oracle builds an index
or raises (outer none). -/
def buildCat (m : Model) (data : List Rec) (fmt : Rec → List Char) (old : Option Idx) :
    Option (Option Idx) :=
  if data.isEmpty then some old
  else (m (data.map fmt)).map some

/-- _create_vector_indices: without a model, return unchanged; else build
species, concepts, processes in order inside one try block — a raise keeps
the indices assigned so far and sets is_initialized = False; full success
leaves is_initialized as it was. -/
def createIndices (st : KB) : KB :=
  match st.model with
  | none => st
  | some m =>
    match buildCat m st.speciesData fmtSpecies st.speciesIdx with
    | none => { st with isInit := false }
    | some si =>
      match buildCat m st.conceptsData fmtConcepts st.conceptsIdx with
      | none => { st with speciesIdx := si, isInit := false }
      | some ci =>
        match buildCat m st.processesData fmtProcesses st.processesIdx with
        | none => { st with speciesIdx := si, conceptsIdx := ci, isInit := false }
        | some pix => { st with speciesIdx := si, conceptsIdx := ci, processesIdx := pix }

/-- add_species: append unconditionally, save, and rebuild the indices when
self.model and self.is_initialized. -/
def addSpecies (st : KB) (r : Rec) : KB :=
  let st1 := saveSpecies { st with speciesData := st.speciesData ++ [r] }
  if st1.model.isSome && st1.isInit then createIndices st1 else st1

/-- add_concept: same shape as add_species. -/
def addConcept (st : KB) (r : Rec) : KB :=
  let st1 := saveConcepts { st with conceptsData := st.conceptsData ++ [r] }
  if st1.model.isSome && st1.isInit then createIndices st1 else st1

/-- update_embeddings: False without a model; else rebuild (its internal
try/except never re-raises), set is_initialized = True, return True. -/
def updateEmbeddings (st : KB) : Bool × KB :=
  match st.model with
  | none => (false, st)
  | some _ => (true, { createIndices st with isInit := true })

/-- A parsed import file: the three optional category keys (the source
checks each key's presence before assigning). -/
structure ImportData where
  species : Option (List Rec)
  concepts : Option (List Rec)
  processes : Option (List Rec)

/-- import_knowledge_base: none models an open or json.load raise — caught,
return False, nothing mutated; on a parsed file, assign the present
categories, save all three, rebuild when a model exists, return True. -/
def importKB (st : KB) (file : Option ImportData) : Bool × KB :=
  match file with
  | none => (false, st)
  | some d =>
    let st1 := { st with
      speciesData := d.species.getD st.speciesData,
      conceptsData := d.concepts.getD st.conceptsData,
      processesData := d.processes.getD st.processesData }
    let st2 := saveProcesses (saveConcepts (saveSpecies st1))
    let st3 := if st2.model.isSome then createIndices st2 else st2
    (true, st3)

/-- The operations a caller can drive the store with (searches perform no
state writes in the source, so their step is the identity on the state). -/
inductive Op where
  | addSpec (r : Rec)
  | addConc (r : Rec)
  | srchS (q : List Char) (k : Nat)
  | srchC (q : List Char) (k : Nat)
  | srchP (q : List Char) (k : Nat)
  | upd

def KB.step (st : KB) : Op → KB
  | .addSpec r => addSpecies st r
  | .addConc r => addConcept st r
  | .srchS _ _ => st
  | .srchC _ _ => st
  | .srchP _ _ => st
  | .upd => (updateEmbeddings st).2

def KB.run (st : KB) (ops : List Op) : KB := ops.foldl KB.step st

/-- The facade state the specification calls LexicalOnly: no model, no
vector indices, is_initialized False (the state _create_fallback_mode
leaves behind). -/
def LexicalOnly (st : KB) : Prop :=
  st.model = none ∧ st.isInit = false ∧
  st.speciesIdx = none ∧ st.conceptsIdx = none ∧ st.processesIdx = none

/-- What claim C1 asserts about one category's basic search: the result is
the first k of the ranked list; scores follow the specification formula
with zero-score records excluded; the ranked list is a permutation of the
scored records, sorted by descending score; ties keep original record
order (the per-score filtrations are unchanged); every ranked record has
positive score. -/
def LexRanked (c : Cat) (data : List Rec) (q : List Char) (k : Nat) : Prop :=
  basicSearch c data q k = (List.insertionSort (geKey c) (scoredList c data q)).take k ∧
  (scoredList c data q = data.filterMap fun r =>
    let sc := specScore (c.textOf r) (low q)
    if 0 < sc then some (c.annB r sc) else none) ∧
  (List.insertionSort (geKey c) (scoredList c data q)).Perm (scoredList c data q) ∧
  (List.insertionSort (geKey c) (scoredList c data q)).Sorted (geKey c) ∧
  (∀ v : Nat,
    (List.insertionSort (geKey c) (scoredList c data q)).filter
        (fun r => getSc r c.key == v)
      = (scoredList c data q).filter (fun r => getSc r c.key == v)) ∧
  ∀ r' ∈ List.insertionSort (geKey c) (scoredList c data q), 0 < getSc r' c.key

/-! ### Concrete inputs used by witnesses and counterexamples -/

/-- A fresh store in fallback mode with no records. -/
def emptyKB : KB :=
  { model := none, speciesData := [], conceptsData := [], processesData := [],
    speciesIdx := none, conceptsIdx := none, processesIdx := none,
    isInit := false, writeOk := true,
    speciesDisk := [], conceptsDisk := [], processesDisk := [] }

/-- A species record whose projected text has two tokens. -/
def rec6 : Rec := [("name", Val.str (cs "cat dog"))]

/-- A record with no name field at all. -/
def recNoName : Rec := [("habitat", Val.str (cs "forest"))]

/-- The concept record of the specification's concrete scenario. -/
def photoRec : Rec :=
  [("name", Val.str (cs "Photosynthesis")),
   ("definition", Val.str (cs "Converts light into chemical energy")),
   ("keywords", Val.lst [cs "light", cs "chlorophyll"])]

/-- A fallback-mode store whose concepts category holds only the scenario
record. -/
def kbConc : KB := { emptyKB with conceptsData := [photoRec] }

/-! ### Lemmas: substring test, tokenizer, score shape -/

theorem isPre_iff : ∀ (p s : List Char), p.isPrefixOf s = true ↔ p <+: s
  | [], s => by simp [List.isPrefixOf, List.nil_prefix]
  | _ :: _, [] => by simp [List.isPrefixOf]
  | a :: p, b :: s => by
    simp [List.isPrefixOf, List.cons_prefix_cons, isPre_iff p s]

theorem substr_iff (p s : List Char) : substrB p s = true ↔ p <:+: s := by
  simp only [substrB, List.any_eq_true, List.mem_tails, isPre_iff,
    List.infix_iff_prefix_suffix]
  exact ⟨fun ⟨t, ht, hp⟩ => ⟨t, hp, ht⟩, fun ⟨t, hp, ht⟩ => ⟨t, ht, hp⟩⟩

theorem splitWSAux_tok : ∀ (s acc : List Char), ∀ w ∈ splitWSAux s acc,
    w <:+: (acc.reverse ++ s)
  | [], acc => by
    intro w hw
    simp only [splitWSAux] at hw
    split at hw
    · simp at hw
    · rw [List.mem_singleton] at hw
      subst hw
      simpa using List.infix_refl acc.reverse
  | c :: rest, acc => by
    intro w hw
    simp only [splitWSAux] at hw
    by_cases hws : isWS c
    · rw [if_pos hws] at hw
      by_cases hacc : acc.isEmpty
      · rw [if_pos hacc] at hw
        rw [List.isEmpty_iff.mp hacc]
        have ih := splitWSAux_tok rest [] w hw
        simp only [List.reverse_nil, List.nil_append] at ih ⊢
        exact ih.trans (List.suffix_cons c rest).isInfix
      · rw [if_neg hacc] at hw
        rcases List.mem_cons.mp hw with hw | hw
        · subst hw
          exact (List.prefix_append acc.reverse (c :: rest)).isInfix
        · have ih := splitWSAux_tok rest [] w hw
          simp only [List.reverse_nil, List.nil_append] at ih
          exact ih.trans (((List.suffix_cons c rest).trans
            (List.suffix_append acc.reverse (c :: rest))).isInfix)
    · rw [if_neg hws] at hw
      have ih := splitWSAux_tok rest (c :: acc) w hw
      simpa [List.append_assoc] using ih

theorem splitWS_tok (s : List Char) : ∀ w ∈ splitWS s, w <:+: s := by
  intro w hw
  simpa using splitWSAux_tok s [] w hw

theorem foldl_score (text : List Char) :
    ∀ (l : List (List Char)) (s0 : Nat),
      l.foldl (fun sc w => if substrB w text then sc + 2 else sc) s0
        = s0 + 2 * l.countP (fun w => substrB w text)
  | [], s0 => by simp
  | w :: l, s0 => by
    rw [List.foldl_cons, foldl_score text l _]
    by_cases h : substrB w text <;> simp [h, List.countP_cons] <;> omega

/-- The source's running-score loop computes exactly the specification's
formula: 0.8 (8) for the full-substring hit plus 0.2 (2) per matching
whitespace token of the query. -/
theorem lexScore_eq_spec (text ql : List Char) : lexScore text ql = specScore text ql := by
  unfold lexScore specScore
  rw [foldl_score]

/-! ### Lemmas: dict get after set -/

theorem getF_setF_self : ∀ (r : Rec) (k : String) (v : Val), getF (setF r k v) k = some v
  | [], k, v => by simp [getF, setF]
  | p :: r, k, v => by
    by_cases h : p.1 == k
    · simp [getF, setF, h]
    · simp [getF, setF, h, getF_setF_self r k v]

theorem getF_setF_ne : ∀ (r : Rec) (k k' : String) (v : Val), k' ≠ k →
    getF (setF r k v) k' = getF r k'
  | [], k, k', v, h => by
    have hkk : (k == k') = false := by
      simpa [beq_iff_eq] using fun hh => h hh.symm
    simp [getF, setF, hkk]
  | p :: r, k, k', v, h => by
    by_cases hp : p.1 == k
    · have hpk : p.1 = k := by simpa [beq_iff_eq] using hp
      have hkk : (k == k') = false := by
        simpa [beq_iff_eq] using fun hh => h hh.symm
      have hp' : (p.1 == k') = false := by
        rw [hpk]
        exact hkk
      simp [getF, setF, hp, hkk, hp']
    · simp [getF, setF, hp, getF_setF_ne r k k' v h]

/-! ### Lemmas: annotated result fields -/

theorem getSc_annSpeciesB (r : Rec) (n : Nat) :
    getSc (annSpeciesB r n) "similarity_score" = n := by
  unfold annSpeciesB getSc
  rw [getF_setF_ne _ _ _ _ (by decide), getF_setF_ne _ _ _ _ (by decide), getF_setF_self]

theorem getSc_annConcB (r : Rec) (n : Nat) :
    getSc (annConcB r n) "relevance_score" = n := by
  unfold annConcB getSc
  rw [getF_setF_ne _ _ _ _ (by decide), getF_setF_self]

theorem getSc_annProcB (r : Rec) (n : Nat) :
    getSc (annProcB r n) "relevance_score" = n := by
  unfold annProcB getSc
  rw [getF_setF_ne _ _ _ _ (by decide), getF_setF_self]

theorem conf_annSpeciesB (r : Rec) (n : Nat) :
    getF (annSpeciesB r n) "confidence" = some (.int (min 90 (max 50 (8 * (n : Int))))) := by
  unfold annSpeciesB
  rw [getF_setF_ne _ _ _ _ (by decide), getF_setF_self]

theorem conf_annSpeciesV (r : Rec) (s : Rat) :
    getF (annSpeciesV r s) "confidence" = some (.int (min 95 (max 60 (pyInt (s * 100))))) := by
  unfold annSpeciesV
  rw [getF_setF_ne _ _ _ _ (by decide), getF_setF_self]

theorem method_annSpeciesB (r : Rec) (n : Nat) :
    getF (annSpeciesB r n) "search_method" = some (.str (cs "basic")) := by
  unfold annSpeciesB
  rw [getF_setF_self]

theorem method_annSpeciesV (r : Rec) (s : Rat) :
    getF (annSpeciesV r s) "search_method" = some (.str (cs "vector")) := by
  unfold annSpeciesV
  rw [getF_setF_self]

theorem conf_annConcB (r : Rec) (n : Nat) :
    getF (annConcB r n) "confidence" = getF r "confidence" := by
  unfold annConcB
  rw [getF_setF_ne _ _ _ _ (by decide), getF_setF_ne _ _ _ _ (by decide)]

theorem conf_annConcV (r : Rec) (s : Rat) :
    getF (annConcV r s) "confidence" = getF r "confidence" := by
  unfold annConcV
  rw [getF_setF_ne _ _ _ _ (by decide), getF_setF_ne _ _ _ _ (by decide)]

theorem conf_annProcB (r : Rec) (n : Nat) :
    getF (annProcB r n) "confidence" = getF r "confidence" := by
  unfold annProcB
  rw [getF_setF_ne _ _ _ _ (by decide), getF_setF_ne _ _ _ _ (by decide)]

theorem conf_annProcV (r : Rec) (s : Rat) :
    getF (annProcV r s) "confidence" = getF r "confidence" := by
  unfold annProcV
  rw [getF_setF_ne _ _ _ _ (by decide), getF_setF_ne _ _ _ _ (by decide)]

/-! ### Lemmas: the stable descending sort -/

theorem filter_oi_eq (c : Cat) (v : Nat) (x : Rec) (hx : getSc x c.key = v) :
    ∀ l : List Rec,
      (List.orderedInsert (geKey c) x l).filter (fun r => getSc r c.key == v)
        = x :: l.filter (fun r => getSc r c.key == v)
  | [] => by simp [List.orderedInsert, hx]
  | y :: l => by
    by_cases hr : geKey c x y
    · simp [List.orderedInsert, hr, hx]
    · have hy : getSc y c.key ≠ v := by
        unfold geKey at hr
        omega
      simp [List.orderedInsert, hr, filter_oi_eq c v x hx l, hy]

theorem filter_oi_ne (c : Cat) (v : Nat) (x : Rec) (hx : getSc x c.key ≠ v) :
    ∀ l : List Rec,
      (List.orderedInsert (geKey c) x l).filter (fun r => getSc r c.key == v)
        = l.filter (fun r => getSc r c.key == v)
  | [] => by simp [List.orderedInsert, hx]
  | y :: l => by
    by_cases hr : geKey c x y
    · simp [List.orderedInsert, hr, hx]
    · simp only [List.orderedInsert, if_neg hr]
      rw [List.filter_cons, List.filter_cons, filter_oi_ne c v x hx l]

theorem filter_insertionSort (c : Cat) (v : Nat) :
    ∀ l : List Rec,
      (List.insertionSort (geKey c) l).filter (fun r => getSc r c.key == v)
        = l.filter (fun r => getSc r c.key == v)
  | [] => rfl
  | x :: l => by
    by_cases hx : getSc x c.key = v
    · simp only [List.insertionSort]
      rw [filter_oi_eq c v x hx, filter_insertionSort c v l]
      simp [hx]
    · simp only [List.insertionSort]
      rw [filter_oi_ne c v x hx, filter_insertionSort c v l]
      simp [hx]

/-! ### Lemmas: the scored list -/

/-- The source's per-record loop score equals the specification formula,
record by record. -/
theorem scoredList_eq_spec (c : Cat) (data : List Rec) (q : List Char) :
    scoredList c data q = data.filterMap fun r =>
      let sc := specScore (c.textOf r) (low q)
      if 0 < sc then some (c.annB r sc) else none := by
  unfold scoredList
  simp only [lexScore_eq_spec]

theorem mem_scoredList (c : Cat) (data : List Rec) (q : List Char) (r' : Rec) :
    r' ∈ scoredList c data q ↔
      ∃ r ∈ data, 0 < lexScore (c.textOf r) (low q) ∧
        r' = c.annB r (lexScore (c.textOf r) (low q)) := by
  unfold scoredList
  simp only [List.mem_filterMap]
  constructor
  · rintro ⟨a, ha, hfa⟩
    by_cases h : 0 < lexScore (c.textOf a) (low q)
    · rw [if_pos h] at hfa
      exact ⟨a, ha, h, (Option.some_injective _ hfa).symm⟩
    · rw [if_neg h] at hfa
      cases hfa
  · rintro ⟨r, hr, hpos, rfl⟩
    exact ⟨r, hr, by rw [if_pos hpos]⟩

theorem getSc_key_scoredList (c : Cat) (hkey : ∀ r n, getSc (c.annB r n) c.key = n)
    (data : List Rec) (q : List Char) :
    ∀ r' ∈ scoredList c data q, 0 < getSc r' c.key := by
  intro r' hr'
  obtain ⟨r, _, hpos, rfl⟩ := (mem_scoredList c data q r').mp hr'
  rw [hkey]
  exact hpos

theorem lexRanked_of_key (c : Cat) (hkey : ∀ r n, getSc (c.annB r n) c.key = n)
    (data : List Rec) (q : List Char) (k : Nat) : LexRanked c data q k := by
  refine ⟨rfl, scoredList_eq_spec c data q, List.perm_insertionSort _ _, ?_,
    fun v => filter_insertionSort c v _, ?_⟩
  · haveI : IsTotal Rec (geKey c) := ⟨fun a b => le_total _ _⟩
    haveI : IsTrans Rec (geKey c) := ⟨fun _ _ _ hab hbd => le_trans hbd hab⟩
    exact List.sorted_insertionSort _ _
  · intro r' hr'
    exact getSc_key_scoredList c hkey data q r'
      ((List.perm_insertionSort _ _).mem_iff.mp hr')

/-- C1: in every category, lexical (basic) search scores each record by 0.8
for a full-substring hit of the lower-cased query plus 0.2 per matching
whitespace token (additively, in exact tenths 8 and 2), excludes records
scoring 0, and returns the first top_k records ordered by descending score
with ties in original record order. -/
theorem C1_lexical_ranking (data : List Rec) (q : List Char) (k : Nat) :
    LexRanked speciesCat data q k ∧ LexRanked conceptsCat data q k ∧
      LexRanked procCat data q k :=
  ⟨lexRanked_of_key speciesCat getSc_annSpeciesB data q k,
   lexRanked_of_key conceptsCat getSc_annConcB data q k,
   lexRanked_of_key procCat getSc_annProcB data q k⟩

/-! ### C6: monotonicity of the lexical score in match strength -/

/-- C6: for a species record, the lexical score of the query equal to the
record's full projected text is at least the score of any query whose token
multiset is a strict subset of the projected text's tokens. -/
theorem C6_lex_monotone (r : Rec) (q : List Char)
    (h : (↑(splitWS (low q)) : Multiset (List Char)) < ↑(splitWS (textSpecies r))) :
    lexScore (textSpecies r) (low q) ≤ lexScore (textSpecies r) (low (rawSpecies r)) := by
  rw [lexScore_eq_spec, lexScore_eq_spec]
  show specScore (textSpecies r) (low q) ≤ specScore (textSpecies r) (textSpecies r)
  have hlen : (splitWS (low q)).length < (splitWS (textSpecies r)).length := by
    have := Multiset.card_lt_card h
    simpa [Multiset.coe_card] using this
  have hall : (splitWS (textSpecies r)).countP (fun w => substrB w (textSpecies r))
      = (splitWS (textSpecies r)).length :=
    List.countP_eq_length.mpr fun w hw =>
      (substr_iff w (textSpecies r)).mpr (splitWS_tok (textSpecies r) w hw)
  have hself : substrB (textSpecies r) (textSpecies r) = true :=
    (substr_iff _ _).mpr (List.infix_refl _)
  have h1 : specScore (textSpecies r) (textSpecies r)
      = 8 + 2 * (splitWS (textSpecies r)).length := by
    simp [specScore, hself, hall]
  have h2 : specScore (textSpecies r) (low q) ≤ 8 + 2 * (splitWS (low q)).length := by
    have hc := List.countP_le_length (fun w => substrB w (textSpecies r))
      (l := splitWS (low q))
    unfold specScore
    by_cases hq : substrB (low q) (textSpecies r) = true
    · rw [if_pos hq]
      omega
    · rw [if_neg hq]
      omega
  omega

/-- Witness for C6 at a concrete record and strict-token-subset query. -/
theorem C6_lex_monotone_w :
    lexScore (textSpecies rec6) (low (cs "cat")) ≤
      lexScore (textSpecies rec6) (low (rawSpecies rec6)) :=
  C6_lex_monotone rec6 (cs "cat")
    (lt_iff_le_and_ne.mpr ⟨by decide, by decide⟩)

/-! ### C9: searching an empty category -/

/-- C9: for every query and every k, search on a category whose record list
is empty returns the empty list (and, being a total function of the state,
never raises). -/
theorem C9_empty_search (st : KB) (q : List Char) (k : Nat)
    (hs : st.speciesData = []) (hc : st.conceptsData = [])
    (hp : st.processesData = []) :
    searchSpecies st q k = [] ∧ searchConcepts st q k = [] ∧
      searchProcesses st q k = [] := by
  unfold searchSpecies searchConcepts searchProcesses searchIn
  rw [hs, hc, hp]
  exact ⟨rfl, rfl, rfl⟩

/-- Witness for C9 on the concrete empty store. -/
theorem C9_empty_search_w :
    searchSpecies emptyKB (cs "cat") 5 = [] ∧
      searchConcepts emptyKB (cs "cat") 5 = [] ∧
      searchProcesses emptyKB (cs "cat") 5 = [] :=
  C9_empty_search emptyKB (cs "cat") 5 rfl rfl rfl

/-! ### C10: failed import leaves the store untouched -/

/-- C10: when the import file cannot be opened or parsed (the raise is
caught before any assignment), import_knowledge_base returns False and the
species, concepts and processes lists — indeed the whole state — are
unchanged. -/
theorem C10_import_failure (st : KB) :
    (importKB st none).1 = false ∧
    (importKB st none).2.speciesData = st.speciesData ∧
    (importKB st none).2.conceptsData = st.conceptsData ∧
    (importKB st none).2.processesData = st.processesData ∧
    (importKB st none).2 = st :=
  ⟨rfl, rfl, rfl, rfl, rfl⟩

/-! ### C2: add performs no name validation -/

/-- createIndices only ever reassigns the index fields and is_initialized. -/
theorem createIndices_shape (st : KB) :
    ∃ a b c d, createIndices st =
      { st with speciesIdx := a, conceptsIdx := b, processesIdx := c,
                isInit := d } := by
  unfold createIndices
  split
  · exact ⟨st.speciesIdx, st.conceptsIdx, st.processesIdx, st.isInit, rfl⟩
  · split
    · exact ⟨st.speciesIdx, st.conceptsIdx, st.processesIdx, false, rfl⟩
    · split
      · exact ⟨_, st.conceptsIdx, st.processesIdx, false, rfl⟩
      · split
        · exact ⟨_, _, st.processesIdx, false, rfl⟩
        · exact ⟨_, _, _, st.isInit, rfl⟩

/-- C2 counterexample: add_species accepts a record with no name field:
nothing raises, the record is appended and persisted, the store changes.
This contradicts the claimed ValidationError with unchanged store. -/
theorem C2_add_no_validation_cex :
    getF recNoName "name" = none ∧
    (addSpecies emptyKB recNoName).speciesData = [recNoName] ∧
    (addSpecies emptyKB recNoName).speciesDisk = [recNoName] ∧
    (addSpecies emptyKB recNoName).speciesData ≠ emptyKB.speciesData := by
  refine ⟨rfl, rfl, rfl, ?_⟩
  decide

/-- C2 amended: add(category, record) performs no validation at all: for
every record — name present or not — the record is appended to the
in-memory list, and persisted whenever the file system accepts the write. -/
theorem C2_add_appends (st : KB) (r : Rec) :
    (addSpecies st r).speciesData = st.speciesData ++ [r] ∧
    (addConcept st r).conceptsData = st.conceptsData ++ [r] ∧
    (st.writeOk = true → (addSpecies st r).speciesDisk = st.speciesData ++ [r]) ∧
    (st.writeOk = true → (addConcept st r).conceptsDisk = st.conceptsData ++ [r]) := by
  have hs : (saveSpecies { st with speciesData := st.speciesData ++ [r] }).speciesData
      = st.speciesData ++ [r] := by
    unfold saveSpecies
    split <;> rfl
  have hc : (saveConcepts { st with conceptsData := st.conceptsData ++ [r] }).conceptsData
      = st.conceptsData ++ [r] := by
    unfold saveConcepts
    split <;> rfl
  have hsd : st.writeOk = true →
      (saveSpecies { st with speciesData := st.speciesData ++ [r] }).speciesDisk
        = st.speciesData ++ [r] := by
    intro hw
    unfold saveSpecies
    rw [if_pos hw]
  have hcd : st.writeOk = true →
      (saveConcepts { st with conceptsData := st.conceptsData ++ [r] }).conceptsDisk
        = st.conceptsData ++ [r] := by
    intro hw
    unfold saveConcepts
    rw [if_pos hw]
  refine ⟨?_, ?_, ?_, ?_⟩
  · simp only [addSpecies]
    split
    · obtain ⟨a, b, c, d, hh⟩ := createIndices_shape
        (saveSpecies { st with speciesData := st.speciesData ++ [r] })
      rw [hh]
      exact hs
    · exact hs
  · simp only [addConcept]
    split
    · obtain ⟨a, b, c, d, hh⟩ := createIndices_shape
        (saveConcepts { st with conceptsData := st.conceptsData ++ [r] })
      rw [hh]
      exact hc
    · exact hc
  · intro hw
    simp only [addSpecies]
    split
    · obtain ⟨a, b, c, d, hh⟩ := createIndices_shape
        (saveSpecies { st with speciesData := st.speciesData ++ [r] })
      rw [hh]
      exact hsd hw
    · exact hsd hw
  · intro hw
    simp only [addConcept]
    split
    · obtain ⟨a, b, c, d, hh⟩ := createIndices_shape
        (saveConcepts { st with conceptsData := st.conceptsData ++ [r] })
      rw [hh]
      exact hcd hw
    · exact hcd hw

/-! ### C7: permanent lexical fallback without a model -/

theorem saveSpecies_model (st : KB) : (saveSpecies st).model = st.model := by
  unfold saveSpecies
  split <;> rfl

theorem saveConcepts_model (st : KB) : (saveConcepts st).model = st.model := by
  unfold saveConcepts
  split <;> rfl

theorem addSpecies_nomodel (st : KB) (r : Rec) (h : st.model = none) :
    addSpecies st r = saveSpecies { st with speciesData := st.speciesData ++ [r] } := by
  have hm : (saveSpecies { st with speciesData := st.speciesData ++ [r] }).model = none := by
    rw [saveSpecies_model]
    exact h
  simp only [addSpecies]
  rw [hm]
  rfl

theorem addConcept_nomodel (st : KB) (r : Rec) (h : st.model = none) :
    addConcept st r = saveConcepts { st with conceptsData := st.conceptsData ++ [r] } := by
  have hm : (saveConcepts { st with conceptsData := st.conceptsData ++ [r] }).model = none := by
    rw [saveConcepts_model]
    exact h
  simp only [addConcept]
  rw [hm]
  rfl

theorem updateEmbeddings_nomodel (st : KB) (h : st.model = none) :
    updateEmbeddings st = (false, st) := by
  unfold updateEmbeddings
  rw [h]

theorem step_lexicalOnly (st : KB) (op : Op) (h : LexicalOnly st) :
    LexicalOnly (KB.step st op) := by
  obtain ⟨hm, hi, hs, hc, hp⟩ := h
  cases op with
  | addSpec r =>
    show LexicalOnly (addSpecies st r)
    rw [addSpecies_nomodel st r hm]
    unfold saveSpecies
    split <;> exact ⟨hm, hi, hs, hc, hp⟩
  | addConc r =>
    show LexicalOnly (addConcept st r)
    rw [addConcept_nomodel st r hm]
    unfold saveConcepts
    split <;> exact ⟨hm, hi, hs, hc, hp⟩
  | srchS q k => exact ⟨hm, hi, hs, hc, hp⟩
  | srchC q k => exact ⟨hm, hi, hs, hc, hp⟩
  | srchP q k => exact ⟨hm, hi, hs, hc, hp⟩
  | upd =>
    show LexicalOnly (updateEmbeddings st).2
    rw [updateEmbeddings_nomodel st hm]
    exact ⟨hm, hi, hs, hc, hp⟩

theorem run_lexicalOnly (st : KB) (ops : List Op) (h : LexicalOnly st) :
    LexicalOnly (KB.run st ops) := by
  induction ops generalizing st with
  | nil => exact h
  | cons op ops ih =>
    show LexicalOnly (KB.run (KB.step st op) ops)
    exact ih (KB.step st op) (step_lexicalOnly st op h)

/-- Without a model the search dispatch always takes the basic path (an
empty category gives [], which is also the basic search of []). -/
theorem searchIn_nomodel (c : Cat) (idx : Option Idx) (ini : Bool)
    (data : List Rec) (q : List Char) (k : Nat) :
    searchIn c false idx ini data q k = basicSearch c data q k := by
  unfold searchIn
  by_cases hd : data.isEmpty
  · rw [if_pos hd, List.isEmpty_iff.mp hd]
    simp [basicSearch, scoredList, List.insertionSort]
  · rw [if_neg hd]

theorem search_lexicalOnly (st : KB) (h : LexicalOnly st) (q : List Char) (k : Nat) :
    searchSpecies st q k = basicSearch speciesCat st.speciesData q k ∧
    searchConcepts st q k = basicSearch conceptsCat st.conceptsData q k ∧
    searchProcesses st q k = basicSearch procCat st.processesData q k := by
  obtain ⟨hm, -, -, -, -⟩ := h
  refine ⟨?_, ?_, ?_⟩
  · show searchIn speciesCat st.model.isSome st.speciesIdx st.isInit st.speciesData q k = _
    rw [hm]
    exact searchIn_nomodel speciesCat st.speciesIdx st.isInit st.speciesData q k
  · show searchIn conceptsCat st.model.isSome st.conceptsIdx st.isInit st.conceptsData q k = _
    rw [hm]
    exact searchIn_nomodel conceptsCat st.conceptsIdx st.isInit st.conceptsData q k
  · show searchIn procCat st.model.isSome st.processesIdx st.isInit st.processesData q k = _
    rw [hm]
    exact searchIn_nomodel procCat st.processesIdx st.isInit st.processesData q k

/-- C7: starting from the fallback state (no model), any sequence of
searches, adds and update_embeddings calls leaves the store in the
LexicalOnly state; every search resolves through the lexical path, and
update_embeddings keeps returning False (with no model it can never
succeed, so the state stays LexicalOnly indefinitely). -/
theorem C7_degradation (st : KB) (h : LexicalOnly st) (ops : List Op) :
    LexicalOnly (KB.run st ops) ∧
    (updateEmbeddings (KB.run st ops)).1 = false ∧
    ∀ q k,
      searchSpecies (KB.run st ops) q k
          = basicSearch speciesCat (KB.run st ops).speciesData q k ∧
        searchConcepts (KB.run st ops) q k
          = basicSearch conceptsCat (KB.run st ops).conceptsData q k ∧
        searchProcesses (KB.run st ops) q k
          = basicSearch procCat (KB.run st ops).processesData q k := by
  have hr := run_lexicalOnly st ops h
  refine ⟨hr, ?_, fun q k => search_lexicalOnly _ hr q k⟩
  rw [updateEmbeddings_nomodel _ hr.1]

/-- Witness for C7: the concrete fallback store, one add, one search, one
refresh attempt. -/
theorem C7_degradation_w :
    LexicalOnly (KB.run kbConc [Op.addSpec recNoName, Op.srchC (cs "light") 5, Op.upd]) ∧
      searchConcepts (KB.run kbConc [Op.addSpec recNoName, Op.srchC (cs "light") 5, Op.upd])
          (cs "light") 5
        = basicSearch conceptsCat
            (KB.run kbConc [Op.addSpec recNoName, Op.srchC (cs "light") 5, Op.upd]).conceptsData
            (cs "light") 5 :=
  ⟨(C7_degradation kbConc ⟨rfl, rfl, rfl, rfl, rfl⟩
      [Op.addSpec recNoName, Op.srchC (cs "light") 5, Op.upd]).1,
   ((C7_degradation kbConc ⟨rfl, rfl, rfl, rfl, rfl⟩
      [Op.addSpec recNoName, Op.srchC (cs "light") 5, Op.upd]).2.2 (cs "light") 5).2.1⟩

/-! ### C4: every search path resolves to a ranked list -/

/-- Case analysis of one category's search dispatch: empty data gives [],
otherwise the call resolves either to the basic (lexical) result — in
particular whenever the vector pipeline or the result loop raises — or to
the successfully collected vector result.  There is no raising path. -/
theorem searchIn_cases (c : Cat) (mp : Bool) (idx : Option Idx) (ini : Bool)
    (data : List Rec) (q : List Char) (k : Nat) :
    (data = [] ∧ searchIn c mp idx ini data q k = []) ∨
    searchIn c mp idx ini data q k = basicSearch c data q k ∨
    ∃ ix pairs res, idx = some ix ∧ ix q (min k data.length) = some pairs ∧
      vectorCollect c data pairs = some res ∧
      searchIn c mp idx ini data q k = res := by
  by_cases hd : data.isEmpty
  · refine Or.inl ⟨List.isEmpty_iff.mp hd, ?_⟩
    unfold searchIn
    rw [if_pos hd]
  · have hne : searchIn c mp idx ini data q k =
        match mp, idx, ini with
        | true, some ix, true => vectorSearch c ix data q k
        | _, _, _ => basicSearch c data q k := by
      unfold searchIn
      rw [if_neg hd]
    cases mp with
    | false =>
      refine Or.inr (Or.inl ?_)
      rw [hne]
    | true =>
      cases idx with
      | none =>
        refine Or.inr (Or.inl ?_)
        rw [hne]
      | some ix =>
        cases ini with
        | false =>
          refine Or.inr (Or.inl ?_)
          rw [hne]
        | true =>
          have hv : searchIn c true (some ix) true data q k = vectorSearch c ix data q k := hne
          cases ho : ix q (min k data.length) with
          | none =>
            refine Or.inr (Or.inl ?_)
            rw [hv]
            unfold vectorSearch
            rw [ho]
          | some pairs =>
            cases hcol : vectorCollect c data pairs with
            | none =>
              refine Or.inr (Or.inl ?_)
              rw [hv]
              unfold vectorSearch
              rw [ho]
              show (match vectorCollect c data pairs with
                | none => basicSearch c data q k
                | some res => res) = basicSearch c data q k
              rw [hcol]
            | some res =>
              refine Or.inr (Or.inr ⟨ix, pairs, res, rfl, ho, hcol, ?_⟩)
              rw [hv]
              unfold vectorSearch
              rw [ho]
              show (match vectorCollect c data pairs with
                | none => basicSearch c data q k
                | some res => res) = res
              rw [hcol]

/-- C4: for every category, query and k, search raises nothing: it resolves
to a ranked list — [] on an empty category, the lexical result whenever the
vector pipeline is off or raises, or the collected vector result.  (The
source has one fixed method per category, so no unknown-category dispatch
exists on these paths.) -/
theorem C4_search_no_raise (st : KB) (q : List Char) (k : Nat) :
    ((st.speciesData = [] ∧ searchSpecies st q k = []) ∨
      searchSpecies st q k = basicSearch speciesCat st.speciesData q k ∨
      ∃ ix pairs res, st.speciesIdx = some ix ∧
        ix q (min k st.speciesData.length) = some pairs ∧
        vectorCollect speciesCat st.speciesData pairs = some res ∧
        searchSpecies st q k = res) ∧
    ((st.conceptsData = [] ∧ searchConcepts st q k = []) ∨
      searchConcepts st q k = basicSearch conceptsCat st.conceptsData q k ∨
      ∃ ix pairs res, st.conceptsIdx = some ix ∧
        ix q (min k st.conceptsData.length) = some pairs ∧
        vectorCollect conceptsCat st.conceptsData pairs = some res ∧
        searchConcepts st q k = res) ∧
    ((st.processesData = [] ∧ searchProcesses st q k = []) ∨
      searchProcesses st q k = basicSearch procCat st.processesData q k ∨
      ∃ ix pairs res, st.processesIdx = some ix ∧
        ix q (min k st.processesData.length) = some pairs ∧
        vectorCollect procCat st.processesData pairs = some res ∧
        searchProcesses st q k = res) :=
  ⟨searchIn_cases speciesCat st.model.isSome st.speciesIdx st.isInit st.speciesData q k,
   searchIn_cases conceptsCat st.model.isSome st.conceptsIdx st.isInit st.conceptsData q k,
   searchIn_cases procCat st.model.isSome st.processesIdx st.isInit st.processesData q k⟩

/-! ### C8: searches return annotated copies and write nothing -/

theorem pyIndex_mem (l : List Rec) (i : Int) (r : Rec) (h : pyIndex l i = some r) :
    r ∈ l := by
  unfold pyIndex at h
  split at h
  · obtain ⟨hlt, rfl⟩ := List.getElem?_eq_some.mp h
    exact List.getElem_mem hlt
  · split at h
    · obtain ⟨hlt, rfl⟩ := List.getElem?_eq_some.mp h
      exact List.getElem_mem hlt
    · cases h

theorem vectorCollect_mem (c : Cat) (data : List Rec) :
    ∀ (pairs : List (Rat × Int)) (res : List Rec),
      vectorCollect c data pairs = some res →
      ∀ r' ∈ res, ∃ rec ∈ data, ∃ s, r' = c.annV rec s
  | [], res, h => by
    cases h
    intro r' hr'
    cases hr'
  | (s, i) :: rest, res, h => by
    unfold vectorCollect at h
    by_cases hi : i = -1
    · rw [if_pos hi] at h
      exact vectorCollect_mem c data rest res h
    · rw [if_neg hi] at h
      cases hp : pyIndex data i with
      | none =>
        rw [hp] at h
        cases h
      | some rec =>
        rw [hp] at h
        cases hrest : vectorCollect c data rest with
        | none =>
          rw [hrest] at h
          cases h
        | some l =>
          rw [hrest] at h
          have hres : c.annV rec s :: l = res := by
            simpa using h
          subst hres
          intro r' hr'
          rcases List.mem_cons.mp hr' with rfl | hr'
          · exact ⟨rec, pyIndex_mem data i rec hp, s, rfl⟩
          · exact vectorCollect_mem c data rest l hrest r' hr'

theorem basicSearch_mem (c : Cat) (data : List Rec) (q : List Char) (k : Nat) :
    ∀ r' ∈ basicSearch c data q k, ∃ rec ∈ data, ∃ n, r' = c.annB rec n := by
  intro r' hr'
  have h1 : r' ∈ List.insertionSort (geKey c) (scoredList c data q) :=
    List.take_subset k _ hr'
  have h2 : r' ∈ scoredList c data q :=
    (List.perm_insertionSort (geKey c) _).mem_iff.mp h1
  obtain ⟨rec, hrec, hpos, rfl⟩ := (mem_scoredList c data q r').mp h2
  exact ⟨rec, hrec, _, rfl⟩

theorem searchIn_shape (c : Cat) (mp : Bool) (idx : Option Idx) (ini : Bool)
    (data : List Rec) (q : List Char) (k : Nat) :
    ∀ r' ∈ searchIn c mp idx ini data q k,
      ∃ rec ∈ data, (∃ s, r' = c.annV rec s) ∨ (∃ n, r' = c.annB rec n) := by
  intro r' hr'
  rcases searchIn_cases c mp idx ini data q k with
    ⟨_, he⟩ | he | ⟨ix, pairs, res, _, _, hcol, he⟩
  · rw [he] at hr'
    cases hr'
  · rw [he] at hr'
    obtain ⟨rec, hrec, n, rfl⟩ := basicSearch_mem c data q k r' hr'
    exact ⟨rec, hrec, Or.inr ⟨n, rfl⟩⟩
  · rw [he] at hr'
    obtain ⟨rec, hrec, s, rfl⟩ := vectorCollect_mem c data pairs res hcol r' hr'
    exact ⟨rec, hrec, Or.inl ⟨s, rfl⟩⟩

/-- C8: a search step writes nothing to the store (the state after a search
operation is the state before), and every returned result is a stored
record with the derived fields set on a copy — similarity/relevance score,
confidence (species only) and search_method — via the vector or the basic
annotation; the stored lists themselves are never touched. -/
theorem C8_frame (st : KB) (q : List Char) (k : Nat) :
    KB.step st (.srchS q k) = st ∧ KB.step st (.srchC q k) = st ∧
    KB.step st (.srchP q k) = st ∧
    (∀ r' ∈ searchSpecies st q k, ∃ rec ∈ st.speciesData,
      (∃ s, r' = annSpeciesV rec s) ∨ (∃ n, r' = annSpeciesB rec n)) ∧
    (∀ r' ∈ searchConcepts st q k, ∃ rec ∈ st.conceptsData,
      (∃ s, r' = annConcV rec s) ∨ (∃ n, r' = annConcB rec n)) ∧
    (∀ r' ∈ searchProcesses st q k, ∃ rec ∈ st.processesData,
      (∃ s, r' = annProcV rec s) ∨ (∃ n, r' = annProcB rec n)) :=
  ⟨rfl, rfl, rfl,
   searchIn_shape speciesCat st.model.isSome st.speciesIdx st.isInit st.speciesData q k,
   searchIn_shape conceptsCat st.model.isSome st.conceptsIdx st.isInit st.conceptsData q k,
   searchIn_shape procCat st.model.isSome st.processesIdx st.isInit st.processesData q k⟩

/-! ### C3: confidence fields of search results -/

/-- C3 counterexample: a concepts search result (category concepts, query
light) carries no confidence field at all, against the claim that every
category's results have one in range. -/
theorem C3_confidence_cex :
    searchConcepts kbConc (cs "light") 5 = [annConcB photoRec 10] ∧
    getF (annConcB photoRec 10) "confidence" = none := by
  exact ⟨by decide, by decide⟩

/-- C3 amended: the clamps themselves are total — min(95, max(60, int(s *
100))) lies in [60, 95] and min(90, max(50, 8 n)) lies in [50, 90] for
every score input; every species search result carries a confidence in
[60, 95] on the vector path and [50, 90] on the basic path; the concepts
and processes searches never attach a confidence field (their results have
one only if the stored record already did). -/
theorem C3_confidence (st : KB) (q : List Char) (k : Nat) :
    (∀ s : Rat, 60 ≤ min 95 (max 60 (pyInt (s * 100))) ∧
      min 95 (max 60 (pyInt (s * 100))) ≤ 95) ∧
    (∀ n : Nat, 50 ≤ min 90 (max 50 (8 * (n : Int))) ∧
      min 90 (max 50 (8 * (n : Int))) ≤ 90) ∧
    (∀ r' ∈ searchSpecies st q k, ∃ v : Int,
      getF r' "confidence" = some (.int v) ∧
      ((getF r' "search_method" = some (.str (cs "vector")) ∧ 60 ≤ v ∧ v ≤ 95) ∨
       (getF r' "search_method" = some (.str (cs "basic")) ∧ 50 ≤ v ∧ v ≤ 90))) ∧
    ((∀ rec ∈ st.conceptsData, getF rec "confidence" = none) →
      ∀ r' ∈ searchConcepts st q k, getF r' "confidence" = none) ∧
    ((∀ rec ∈ st.processesData, getF rec "confidence" = none) →
      ∀ r' ∈ searchProcesses st q k, getF r' "confidence" = none) := by
  refine ⟨fun s => ⟨by omega, by omega⟩, fun n => ⟨by omega, by omega⟩, ?_, ?_, ?_⟩
  · intro r' hr'
    obtain ⟨rec, -, hcase⟩ := searchIn_shape speciesCat st.model.isSome st.speciesIdx
      st.isInit st.speciesData q k r' hr'
    rcases hcase with ⟨s, rfl⟩ | ⟨n, rfl⟩
    · exact ⟨_, conf_annSpeciesV rec s,
        Or.inl ⟨method_annSpeciesV rec s, by omega, by omega⟩⟩
    · exact ⟨_, conf_annSpeciesB rec n,
        Or.inr ⟨method_annSpeciesB rec n, by omega, by omega⟩⟩
  · intro hnone r' hr'
    obtain ⟨rec, hrec, hcase⟩ := searchIn_shape conceptsCat st.model.isSome st.conceptsIdx
      st.isInit st.conceptsData q k r' hr'
    rcases hcase with ⟨s, rfl⟩ | ⟨n, rfl⟩
    · show getF (annConcV rec s) "confidence" = none
      rw [conf_annConcV]
      exact hnone rec hrec
    · show getF (annConcB rec n) "confidence" = none
      rw [conf_annConcB]
      exact hnone rec hrec
  · intro hnone r' hr'
    obtain ⟨rec, hrec, hcase⟩ := searchIn_shape procCat st.model.isSome st.processesIdx
      st.isInit st.processesData q k r' hr'
    rcases hcase with ⟨s, rfl⟩ | ⟨n, rfl⟩
    · show getF (annProcV rec s) "confidence" = none
      rw [conf_annProcV]
      exact hnone rec hrec
    · show getF (annProcB rec n) "confidence" = none
      rw [conf_annProcB]
      exact hnone rec hrec

/-! ### C5: the concrete Photosynthesis scenario -/

/-- C5 counterexample: in the scenario the returned record has no
confidence field at all (and no similarity_score field either — the
concepts path stores the score under relevance_score), so the claimed
confidence of 50 is false. -/
theorem C5_scenario_cex :
    searchConcepts kbConc (cs "light energy") 5 = [annConcB photoRec 4] ∧
    getF (annConcB photoRec 4) "confidence" = none ∧
    getF (annConcB photoRec 4) "similarity_score" = none := by
  exact ⟨by decide, by decide, by decide⟩

/-- C5 amended: lexical search for light energy on the single-record
concepts category returns exactly that record annotated with
relevance_score 0.4 (4 tenths) and search_method basic: the full two-word
query is not a substring, while both tokens light and energy are; the
result list is non-empty.  No confidence field is attached. -/
theorem C5_scenario :
    searchConcepts kbConc (cs "light energy") 5 = [annConcB photoRec 4] ∧
    searchConcepts kbConc (cs "light energy") 5 ≠ [] ∧
    getSc (annConcB photoRec 4) "relevance_score" = 4 ∧
    getF (annConcB photoRec 4) "search_method" = some (.str (cs "basic")) ∧
    substrB (low (cs "light energy")) (textConcepts photoRec) = false ∧
    substrB (cs "light") (textConcepts photoRec) = true ∧
    substrB (cs "energy") (textConcepts photoRec) = true := by
  exact ⟨by decide, by decide, by decide, by decide, by decide, by decide, by decide⟩
